import Mathlib

/-!
Verification of the incremental computation engine in `src/lib.rs` (module `ic`).

The embedding is a shallow state-passing model of the Rust code:

* `Revision` is the `u64` newtype `Revision(u64)`; it is incremented once per
  effective leaf mutation, so overflow is immaterial (and checked in debug
  builds); it is modelled as `Nat`.
* Node values are Rust generics `T : PartialEq`; the claims only use equality
  on them, so they are modelled as `Nat` codes.
* `GraphState` packages the single `Graph { revision }` together with the leaf
  cells (`Leaf<T>`), the branch interiors (`RefCell<BranchInner<T>>`,
  addressed by numeric ids) and, for every branch, whether its `RefCell` is
  currently mutably borrowed (`inProgress`, true exactly while that branch's
  recompute closure is running further up the call chain).
* A recompute closure `FnOnce(ParentToken<T>)` is embedded as a `Comp`
  program: a finite sequence of `Leaf::read` / `Branch::verify` dependency
  reads whose continuations may depend on the values read (dynamic
  dependencies), ended either by `ParentToken::compute` (`Comp.commit`) or by
  returning without calling it (`Comp.skip`).
* `verify`/`runComp` execute `Branch::verify` and a closure body.  Both are
  fuel-indexed to make the (genuinely recursive) Rust call structure
  structurally terminating in Lean; `VError.outOfFuel` is a modelling
  artifact only.  A Rust panic is modelled as an `Except.error` value that
  propagates to the outermost caller while keeping the state changes already
  performed (unwinding drops the `RefMut`, which is the `setInProgress _ _
  false` on the error path, and `ParentToken::drop` does not re-panic while
  panicking).
* Ghost instrumentation, present only so that theorems can speak about what
  happened during a run and with no influence on state, values, tokens or
  errors: the `List Nat` component of each result (ids of branches whose
  recompute closure was invoked, in invocation order), `CompOut.reads` (the
  revisions folded into the closure's token, in order), `CompOut.committed`
  (whether `ParentToken::compute` was called), `CompOut.mutated` (whether the
  commit actually ran the mutator) and `VerifyOut.run` (`some` iff the
  staleness check invoked the recompute closure, carrying that run's
  `CompOut`).
-/

namespace Incremental

/-- Rust `Leaf<T> { value, last_modified }`. -/
structure Leaf where
  value : Nat
  last_modified : Nat
deriving Repr, DecidableEq

/-- Rust `BranchInner<T> { value, last_modified, last_verified }`. -/
structure BranchInner where
  value : Nat
  last_modified : Nat
  last_verified : Nat
deriving Repr, DecidableEq

/-- The whole mutable state: the `Graph`'s revision counter, every leaf,
every branch interior, and every branch `RefCell`'s mutable-borrow flag. -/
structure GraphState where
  revision : Nat
  leaves : Nat → Leaf
  branches : Nat → BranchInner
  inProgress : Nat → Bool

/-- Point update of one leaf cell. -/
def setLeaf (s : GraphState) (i : Nat) (l : Leaf) : GraphState :=
  { s with leaves := fun j => if j = i then l else s.leaves j }

/-- Point update of one branch interior. -/
def setBranch (s : GraphState) (i : Nat) (b : BranchInner) : GraphState :=
  { s with branches := fun j => if j = i then b else s.branches j }

/-- Point update of one branch's mutable-borrow flag. -/
def setInProgress (s : GraphState) (i : Nat) (v : Bool) : GraphState :=
  { s with inProgress := fun j => if j = i then v else s.inProgress j }

/-- Rust `Graph::leaf`: a fresh leaf is stamped with the graph's current
revision. -/
def mkLeaf (s : GraphState) (v : Nat) : Leaf :=
  { value := v, last_modified := s.revision }

/-- Rust `Graph::branch`: a fresh branch is stamped
`last_verified = last_modified = current revision`. -/
def mkBranch (s : GraphState) (v : Nat) : BranchInner :=
  { value := v, last_modified := s.revision, last_verified := s.revision }

/-- Rust `Graph::replace`: if the new value equals the current one this is a
no-op returning the argument (which equals the old value); otherwise it
increments the revision, stamps the leaf and swaps the value, returning the
old one. -/
def replace (s : GraphState) (i : Nat) (v : Nat) : GraphState × Nat :=
  let l := s.leaves i
  if v = l.value then
    (s, v)
  else
    let s1 := { s with revision := s.revision + 1 }
    (setLeaf s1 i { value := v, last_modified := s1.revision }, l.value)

/-- Modelled from the spec: `Graph::replace_always` is listed in the spec's
interface (identical to `replace` but skipping the equality check, always
advancing the revision) but is absent from `src/lib.rs`, which only defines
`replace`. -/
def replace_always (s : GraphState) (i : Nat) (v : Nat) : GraphState × Nat :=
  let l := s.leaves i
  let s1 := { s with revision := s.revision + 1 }
  (setLeaf s1 i { value := v, last_modified := s1.revision }, l.value)

/-- Deep embedding of a recompute closure body: dependency reads (whose
continuation may inspect the value read) ending either in
`ParentToken::compute` with a mutator of the cached value, or in returning
without calling it. -/
inductive Comp where
  | commit (mutator : Nat → Nat) : Comp
  | skip : Comp
  | readLeaf (i : Nat) (k : Nat → Comp) : Comp
  | readBranch (i : Nat) (k : Nat → Comp) : Comp

/-- Errors: the two panics of `src/lib.rs` plus the fuel artifact. -/
inductive VError where
  | cycleDetected
  | forgotToRecompute
  | outOfFuel
deriving Repr, DecidableEq

/-- Result of one closure run: the token's final running maximum
(`ParentToken.last_modified`), plus ghost fields `reads` (revisions folded
into the token, in order), `committed`, `mutated`. -/
structure CompOut where
  token : Nat
  reads : List Nat
  committed : Bool
  mutated : Bool
deriving Repr, DecidableEq

/-- Result of `Branch::verify`: the borrowed cached value, the caller token's
new running maximum, and the ghost record of the closure run, if any. -/
structure VerifyOut where
  value : Nat
  token : Nat
  run : Option CompOut
deriving Repr, DecidableEq

/-- State prepared by `Branch::verify` before invoking the recompute closure:
`borrow.last_verified = graph.revision` has been written and the branch's
`RefCell` is mutably borrowed (held by the `ParentToken`). -/
def beginRecompute (s : GraphState) (bid : Nat) : GraphState :=
  setInProgress
    (setBranch s bid { s.branches bid with last_verified := s.revision }) bid true

mutual

/-- Execution of a recompute closure body for branch `bid`, whose `RefCell`
is mutably borrowed (`inProgress bid = true`); `tm` is the token's running
maximum, seeded by `verify` at the branch's `last_modified`.
`Comp.commit` is `ParentToken::compute`: a no-op unless the aggregated
maximum exceeds the branch's `last_modified`, in which case it stores the
maximum and runs the mutator.  `Comp.skip` returns without calling
`compute`; the `ParentToken` is then dropped, and `Drop for ParentToken`
panics (`VError.forgotToRecompute`) iff the aggregated maximum exceeds the
branch's `last_modified` (the drop check is skipped while already
panicking, which the error-propagation cases model). -/
def runComp : Nat → (Nat → Comp) → Nat → Comp → GraphState → Nat →
    GraphState × List Nat × Except VError CompOut
  | 0, _, _, _, s, _ => (s, [], .error .outOfFuel)
  | Nat.succ _, _, bid, Comp.commit m, s, tm =>
      let b := s.branches bid
      if b.last_modified < tm then
        (setBranch s bid { b with last_modified := tm, value := m b.value }, [],
          .ok { token := tm, reads := [], committed := true, mutated := true })
      else
        (s, [], .ok { token := tm, reads := [], committed := true, mutated := false })
  | Nat.succ _, _, bid, Comp.skip, s, tm =>
      let b := s.branches bid
      if b.last_modified < tm then
        (s, [], .error .forgotToRecompute)
      else
        (s, [], .ok { token := tm, reads := [], committed := false, mutated := false })
  | Nat.succ fuel, env, bid, Comp.readLeaf i k, s, tm =>
      let l := s.leaves i
      match runComp fuel env bid (k l.value) s (max tm l.last_modified) with
      | (s1, g, Except.ok co) => (s1, g, .ok { co with reads := l.last_modified :: co.reads })
      | (s1, g, Except.error e) => (s1, g, .error e)
  | Nat.succ fuel, env, bid, Comp.readBranch i k, s, tm =>
      match verify fuel env i s tm with
      | (s1, g1, Except.ok out) =>
          let r := (s1.branches i).last_modified
          match runComp fuel env bid (k out.value) s1 out.token with
          | (s2, g2, Except.ok co) =>
              (s2, g1 ++ g2, .ok { co with reads := r :: co.reads })
          | (s2, g2, Except.error e) => (s2, g1 ++ g2, .error e)
      | (s1, g1, Except.error e) => (s1, g1, .error e)

/-- Rust `Branch::verify`.  If the branch's `RefCell` is already mutably
borrowed, `try_borrow_mut` fails (the `Err` arm does nothing) and the
subsequent `try_borrow` also fails: the cycle panic.  Otherwise, if
`last_verified < graph.revision`, it writes `last_verified := revision` and
runs the recompute closure of `bid` (given by `env`) with a fresh token
seeded at the branch's `last_modified`, holding the mutable borrow for the
closure's duration; a closure panic propagates after the borrow is released.
Finally the shared re-borrow succeeds, the caller token is raised by the
branch's (possibly refreshed) `last_modified`, and the cached value is
returned. -/
def verify : Nat → (Nat → Comp) → Nat → GraphState → Nat →
    GraphState × List Nat × Except VError VerifyOut
  | 0, _, _, s, _ => (s, [], .error .outOfFuel)
  | Nat.succ fuel, env, bid, s, tok =>
      if s.inProgress bid then
        (s, [], .error .cycleDetected)
      else
        let b := s.branches bid
        if b.last_verified < s.revision then
          match runComp fuel env bid (env bid) (beginRecompute s bid) b.last_modified with
          | (s2, g2, Except.ok co) =>
              let s3 := setInProgress s2 bid false
              (s3, bid :: g2,
                .ok { value := (s3.branches bid).value,
                      token := max tok (s3.branches bid).last_modified,
                      run := some co })
          | (s2, g2, Except.error e) =>
              (setInProgress s2 bid false, bid :: g2, .error e)
        else
          (s, [],
            .ok { value := b.value, token := max tok b.last_modified, run := none })

end

/-- Relation between a state and a later state of the same run: the revision
counter and the leaves are untouched (only `replace` mutates them, and it is
never called during verification), and every branch's stamps are
non-decreasing. -/
def Evolves (s s1 : GraphState) : Prop :=
  s1.revision = s.revision ∧ s1.leaves = s.leaves ∧
  (∀ b, (s.branches b).last_modified ≤ (s1.branches b).last_modified) ∧
  (∀ b, (s.branches b).last_verified ≤ (s1.branches b).last_verified)

/-- Well-formedness invariant of the engine state: every stamp is at most the
graph's revision, and `last_verified ≥ last_modified` on every branch. -/
def WF (s : GraphState) : Prop :=
  (∀ i, (s.leaves i).last_modified ≤ s.revision) ∧
  (∀ b, (s.branches b).last_modified ≤ (s.branches b).last_verified ∧
    (s.branches b).last_verified ≤ s.revision)

/-!
Concrete scenarios, mirroring the repository's own tests: leaf ids 0, 1, 2
are `a`, `b`, `c`; branch programs are given per branch id by an
environment.  They are used to instantiate the claim theorems on explicit
inputs.
-/

/-- Programs of the repository test: branch 0 is `sum_a_b = a + b`, branch 1
is `mul_c_sum_a_b = c * sum_a_b`. -/
def envMin : Nat → Comp
  | 0 => .readLeaf 0 (fun a => .readLeaf 1 (fun b => .commit fun _ => a + b))
  | 1 => .readLeaf 2 (fun c => .readBranch 0 (fun sab => .commit fun _ => c * sab))
  | _ => .skip

/-- Fresh graph of the repository test: `a = 1`, `b = 2`, `c = 3`, branch 0
seeded with `3`, branch 1 seeded with `9`, revision 0. -/
def sMin0 : GraphState :=
  { revision := 0
    leaves := fun i => if i = 0 then ⟨1, 0⟩ else if i = 1 then ⟨2, 0⟩ else ⟨3, 0⟩
    branches := fun i => if i = 0 then ⟨3, 0, 0⟩ else ⟨9, 0, 0⟩
    inProgress := fun _ => false }

/-- After `replace(b, 6)`: revision 1. -/
def sMin1 : GraphState := (replace sMin0 1 6).1

/-- After verifying branch 0 (recomputes to 7 at revision 1). -/
def sMin2 : GraphState := (verify 10 envMin 0 sMin1 0).1

/-- After `replace(c, 9)`: revision 2; `c` was never read by branch 0. -/
def sMin3 : GraphState := (replace sMin2 2 9).1

/-- Ghost record of branch 0's closure run on `sMin3`: both reads are stale,
so the commit does not mutate. -/
def coMin : CompOut := { token := 1, reads := [0, 1], committed := true, mutated := false }

/-- Result of verifying branch 0 on `sMin3`: cached 7 survives. -/
def outMin : VerifyOut := { value := 7, token := 1, run := some coMin }

/-- Programs of the repository cycle test: branch 0 reads leaf 0 then branch
1; branch 1 reads branch 0. -/
def envCyc : Nat → Comp
  | 0 => .readLeaf 0 (fun x => .readBranch 1 (fun b => .commit fun _ => x + b))
  | _ => .readBranch 0 (fun a => .commit fun _ => a + 1)

/-- State of the cycle test after `replace(ignite, 1)`: both branches are
stale at revision 1. -/
def sCyc : GraphState :=
  { revision := 1
    leaves := fun _ => ⟨1, 1⟩
    branches := fun _ => ⟨0, 0, 0⟩
    inProgress := fun _ => false }

/-- A branch whose recompute closure reads the branch itself. -/
def envSelf : Nat → Comp :=
  fun _ => .readBranch 0 (fun a => .commit fun _ => a)

/-- Stale state for the self-cycle scenario: branch 0 caches 7 from
revision 0, graph at revision 1. -/
def sSelf : GraphState :=
  { revision := 1
    leaves := fun _ => ⟨1, 1⟩
    branches := fun _ => ⟨7, 0, 0⟩
    inProgress := fun _ => false }

/-- Environment in which every closure immediately returns without calling
`compute`. -/
def envSkip : Nat → Comp := fun _ => Comp.skip

/-- Stale state for the missed-commit scenario: branch 0 is unverified for
revision 1 but none of its (zero) dependencies changed. -/
def sSkip : GraphState :=
  { revision := 1
    leaves := fun _ => ⟨1, 1⟩
    branches := fun _ => ⟨5, 0, 0⟩
    inProgress := fun _ => false }

/-- Ghost record of the skip run: no reads, no commit, token stays at the
seed 0. -/
def coSkip : CompOut := { token := 0, reads := [], committed := false, mutated := false }

/-- Result of verifying branch 0 on `sSkip`: the stale check runs the
closure, no commit happens, no error is raised. -/
def outSkip : VerifyOut := { value := 5, token := 0, run := some coSkip }

/-- Branch 0 depends on leaf 0 and commits its value. -/
def envSeed : Nat → Comp :=
  fun _ => .readLeaf 0 (fun a => .commit fun _ => a)

/-- Fresh graph holding one leaf (value 1) and one branch seeded with 42 at
revision 0. -/
def sSeed : GraphState :=
  { revision := 0
    leaves := fun _ => ⟨1, 0⟩
    branches := fun _ => ⟨42, 0, 0⟩
    inProgress := fun _ => false }

/-- After `replace(leaf 0, 5)`: revision 1, branch 0 now stale. -/
def sSeed1 : GraphState := (replace sSeed 0 5).1

/-- Diamond: branch 0 reads leaf 0; branches 1 and 2 both read branch 0;
branch 3 reads branches 1 and 2. -/
def envDia : Nat → Comp
  | 0 => .readLeaf 0 (fun a => .commit fun _ => a)
  | 1 => .readBranch 0 (fun x => .commit fun _ => x + 1)
  | 2 => .readBranch 0 (fun x => .commit fun _ => x + 2)
  | _ => .readBranch 1 (fun y => .readBranch 2 (fun z => .commit fun _ => y + z))

/-- Diamond state: leaf 0 holds 5 stamped at revision 1; all four branches
are unverified for revision 1. -/
def sDia : GraphState :=
  { revision := 1
    leaves := fun _ => ⟨5, 1⟩
    branches := fun _ => ⟨0, 0, 0⟩
    inProgress := fun _ => false }

/-- State used to exercise `replace`: revision 3, leaf 0 holds 4 stamped at
revision 2. -/
def sRep : GraphState :=
  { revision := 3
    leaves := fun _ => ⟨4, 2⟩
    branches := fun _ => ⟨0, 0, 0⟩
    inProgress := fun _ => false }

/-- Ghost record of branch 3's diamond run: it folds the refreshed
`last_modified` (1) of branches 1 and 2 and commits. -/
def coDia : CompOut := { token := 1, reads := [1, 1], committed := true, mutated := true }

/-- Result of verifying branch 3 on `sDia`: `(5 + 1) + (5 + 2) = 13`. -/
def outDia : VerifyOut := { value := 13, token := 1, run := some coDia }

/-- Well-formed state for the monotonicity witness: revision 1, leaf 1 just
rewritten to 6. -/
def sMon : GraphState :=
  { revision := 1
    leaves := fun i => if i = 1 then ⟨6, 1⟩ else ⟨1, 0⟩
    branches := fun _ => ⟨3, 0, 0⟩
    inProgress := fun _ => false }

/-- Environment whose closures return without reading or committing. -/
def envNine : Nat → Comp := fun _ => Comp.skip

/-- Quiescent fresh state: everything stamped at revision 0. -/
def sNine : GraphState :=
  { revision := 0
    leaves := fun _ => ⟨0, 0⟩
    branches := fun _ => ⟨1, 0, 0⟩
    inProgress := fun _ => false }

/-! Unfolding lemmas for the two executors, one per control path. -/

theorem verify_zero (env : Nat → Comp) (bid : Nat) (s : GraphState) (tok : Nat) :
    verify 0 env bid s tok = (s, [], .error .outOfFuel) := rfl

theorem verify_reenter (fuel : Nat) (env : Nat → Comp) (bid : Nat) (s : GraphState)
    (tok : Nat) (h : s.inProgress bid = true) :
    verify (fuel + 1) env bid s tok = (s, [], .error .cycleDetected) := by
  simp [verify, h]

theorem verify_fresh (fuel : Nat) (env : Nat → Comp) (bid : Nat) (s : GraphState)
    (tok : Nat) (h : s.inProgress bid = false)
    (h2 : ¬ (s.branches bid).last_verified < s.revision) :
    verify (fuel + 1) env bid s tok =
      (s, [], .ok { value := (s.branches bid).value,
                    token := max tok (s.branches bid).last_modified, run := none }) := by
  simp [verify, h, h2]

theorem verify_stale_ok (fuel : Nat) (env : Nat → Comp) (bid : Nat) (s : GraphState)
    (tok : Nat) (s2 : GraphState) (g2 : List Nat) (co : CompOut)
    (h : s.inProgress bid = false) (h2 : (s.branches bid).last_verified < s.revision)
    (hr : runComp fuel env bid (env bid) (beginRecompute s bid)
            (s.branches bid).last_modified = (s2, g2, .ok co)) :
    verify (fuel + 1) env bid s tok =
      (setInProgress s2 bid false, bid :: g2,
        .ok { value := (s2.branches bid).value,
              token := max tok (s2.branches bid).last_modified, run := some co }) := by
  simp [verify, h, h2, hr, setInProgress]

theorem verify_stale_err (fuel : Nat) (env : Nat → Comp) (bid : Nat) (s : GraphState)
    (tok : Nat) (s2 : GraphState) (g2 : List Nat) (e : VError)
    (h : s.inProgress bid = false) (h2 : (s.branches bid).last_verified < s.revision)
    (hr : runComp fuel env bid (env bid) (beginRecompute s bid)
            (s.branches bid).last_modified = (s2, g2, .error e)) :
    verify (fuel + 1) env bid s tok = (setInProgress s2 bid false, bid :: g2, .error e) := by
  simp [verify, h, h2, hr]

theorem runComp_zero (env : Nat → Comp) (bid : Nat) (c : Comp) (s : GraphState) (tm : Nat) :
    runComp 0 env bid c s tm = (s, [], .error .outOfFuel) := rfl

theorem runComp_commit (fuel : Nat) (env : Nat → Comp) (bid : Nat) (m : Nat → Nat)
    (s : GraphState) (tm : Nat) :
    runComp (fuel + 1) env bid (.commit m) s tm =
      if (s.branches bid).last_modified < tm then
        (setBranch s bid
            { s.branches bid with last_modified := tm, value := m (s.branches bid).value }, [],
          .ok { token := tm, reads := [], committed := true, mutated := true })
      else
        (s, [], .ok { token := tm, reads := [], committed := true, mutated := false }) := by
  by_cases h : (s.branches bid).last_modified < tm <;> simp [runComp, h]

theorem runComp_skip (fuel : Nat) (env : Nat → Comp) (bid : Nat)
    (s : GraphState) (tm : Nat) :
    runComp (fuel + 1) env bid .skip s tm =
      if (s.branches bid).last_modified < tm then
        (s, [], .error .forgotToRecompute)
      else
        (s, [], .ok { token := tm, reads := [], committed := false, mutated := false }) := by
  by_cases h : (s.branches bid).last_modified < tm <;> simp [runComp, h]

theorem runComp_readLeaf_ok (fuel : Nat) (env : Nat → Comp) (bid i : Nat) (k : Nat → Comp)
    (s : GraphState) (tm : Nat) (s1 : GraphState) (g : List Nat) (co : CompOut)
    (hr : runComp fuel env bid (k (s.leaves i).value) s
            (max tm (s.leaves i).last_modified) = (s1, g, .ok co)) :
    runComp (fuel + 1) env bid (.readLeaf i k) s tm =
      (s1, g, .ok { co with reads := (s.leaves i).last_modified :: co.reads }) := by
  simp [runComp, hr]

theorem runComp_readLeaf_err (fuel : Nat) (env : Nat → Comp) (bid i : Nat) (k : Nat → Comp)
    (s : GraphState) (tm : Nat) (s1 : GraphState) (g : List Nat) (e : VError)
    (hr : runComp fuel env bid (k (s.leaves i).value) s
            (max tm (s.leaves i).last_modified) = (s1, g, .error e)) :
    runComp (fuel + 1) env bid (.readLeaf i k) s tm = (s1, g, .error e) := by
  simp [runComp, hr]

theorem runComp_readBranch_verr (fuel : Nat) (env : Nat → Comp) (bid i : Nat)
    (k : Nat → Comp) (s : GraphState) (tm : Nat) (s1 : GraphState) (g1 : List Nat)
    (e : VError) (hv : verify fuel env i s tm = (s1, g1, .error e)) :
    runComp (fuel + 1) env bid (.readBranch i k) s tm = (s1, g1, .error e) := by
  simp [runComp, hv]

theorem runComp_readBranch_ok (fuel : Nat) (env : Nat → Comp) (bid i : Nat)
    (k : Nat → Comp) (s : GraphState) (tm : Nat) (s1 : GraphState) (g1 : List Nat)
    (out : VerifyOut) (s2 : GraphState) (g2 : List Nat) (co : CompOut)
    (hv : verify fuel env i s tm = (s1, g1, .ok out))
    (hr : runComp fuel env bid (k out.value) s1 out.token = (s2, g2, .ok co)) :
    runComp (fuel + 1) env bid (.readBranch i k) s tm =
      (s2, g1 ++ g2, .ok { co with reads := (s1.branches i).last_modified :: co.reads }) := by
  simp [runComp, hv, hr]

theorem runComp_readBranch_rerr (fuel : Nat) (env : Nat → Comp) (bid i : Nat)
    (k : Nat → Comp) (s : GraphState) (tm : Nat) (s1 : GraphState) (g1 : List Nat)
    (out : VerifyOut) (s2 : GraphState) (g2 : List Nat) (e : VError)
    (hv : verify fuel env i s tm = (s1, g1, .ok out))
    (hr : runComp fuel env bid (k out.value) s1 out.token = (s2, g2, .error e)) :
    runComp (fuel + 1) env bid (.readBranch i k) s tm = (s2, g1 ++ g2, .error e) := by
  simp [runComp, hv, hr]

/-! Frame and monotonicity facts, by joint induction on the fuel. -/

theorem evolves_refl (s : GraphState) : Evolves s s :=
  ⟨rfl, rfl, fun _ => le_refl _, fun _ => le_refl _⟩

theorem evolves_trans {s s1 s2 : GraphState} (h : Evolves s s1) (h2 : Evolves s1 s2) :
    Evolves s s2 :=
  ⟨h2.1.trans h.1, h2.2.1.trans h.2.1,
    fun b => (h.2.2.1 b).trans (h2.2.2.1 b),
    fun b => (h.2.2.2 b).trans (h2.2.2.2 b)⟩

theorem evolves_beginRecompute (s : GraphState) (bid : Nat)
    (h : (s.branches bid).last_verified < s.revision) :
    Evolves s (beginRecompute s bid) := by
  refine ⟨rfl, rfl, fun b => ?_, fun b => ?_⟩
  · simp only [beginRecompute, setInProgress, setBranch]
    by_cases hb : b = bid <;> simp [hb]
  · simp only [beginRecompute, setInProgress, setBranch]
    by_cases hb : b = bid
    · simp [hb]
      omega
    · simp [hb]

theorem frame_aux : ∀ fuel : Nat,
    (∀ env bid s tok s1 g r, verify fuel env bid s tok = (s1, g, r) →
      Evolves s s1 ∧ s1.inProgress = s.inProgress ∧
      ∀ b, s.inProgress b = true → s1.branches b = s.branches b) ∧
    (∀ env bid c s tm s1 g r, runComp fuel env bid c s tm = (s1, g, r) →
      Evolves s s1 ∧ s1.inProgress = s.inProgress ∧
      (∀ b, s.inProgress b = true → b ≠ bid → s1.branches b = s.branches b) ∧
      (s.inProgress bid = true →
        (s1.branches bid).last_verified = (s.branches bid).last_verified ∧
        ∀ e, r = Except.error e → s1.branches bid = s.branches bid)) := by
  intro fuel
  induction fuel with
  | zero =>
      constructor
      · intro env bid s tok s1 g r h
        rw [verify_zero] at h
        cases h
        exact ⟨evolves_refl s, rfl, fun _ _ => rfl⟩
      · intro env bid c s tm s1 g r h
        rw [runComp_zero] at h
        cases h
        exact ⟨evolves_refl s, rfl, fun _ _ _ => rfl, fun _ => ⟨rfl, fun _ _ => rfl⟩⟩
  | succ n ih =>
      obtain ⟨ihv, ihr⟩ := ih
      constructor
      · -- verify (n+1)
        intro env bid s tok s1 g r h
        by_cases hp : s.inProgress bid = true
        · rw [verify_reenter n env bid s tok hp] at h
          cases h
          exact ⟨evolves_refl s, rfl, fun _ _ => rfl⟩
        · have hp' : s.inProgress bid = false := by simpa using hp
          by_cases hst : (s.branches bid).last_verified < s.revision
          · rcases hE : runComp n env bid (env bid) (beginRecompute s bid)
                (s.branches bid).last_modified with ⟨s2, g2, r2⟩
            obtain ⟨hEv, hIp, hPres, _⟩ :=
              ihr env bid (env bid) (beginRecompute s bid) _ s2 g2 r2 hE
            have hIpPt : ∀ j, s2.inProgress j = if j = bid then true else s.inProgress j := by
              intro j
              rw [hIp]
              rfl
            have hPresS : ∀ b, s.inProgress b = true → s2.branches b = s.branches b := by
              intro b hb
              have hbne : b ≠ bid := fun hc => by rw [hc] at hb; rw [hp'] at hb; cases hb
              have h1 : (beginRecompute s bid).inProgress b = true := by
                simp only [beginRecompute, setInProgress, setBranch]
                simp [hbne, hb]
              have h2 := hPres b h1 hbne
              rw [h2]
              simp only [beginRecompute, setInProgress, setBranch]
              simp [hbne]
            have hFinIp : (setInProgress s2 bid false).inProgress = s.inProgress := by
              funext j
              simp only [setInProgress]
              by_cases hj : j = bid
              · simp [hj, hp']
              · simp [hj, hIpPt j]
            have hFinEv : Evolves s (setInProgress s2 bid false) := by
              have h1 := evolves_trans (evolves_beginRecompute s bid hst) hEv
              exact ⟨h1.1, h1.2.1, h1.2.2.1, h1.2.2.2⟩
            have hFinPres : ∀ b, s.inProgress b = true →
                (setInProgress s2 bid false).branches b = s.branches b := by
              intro b hb
              exact hPresS b hb
            cases r2 with
            | ok co =>
                rw [verify_stale_ok n env bid s tok s2 g2 co hp' hst hE] at h
                cases h
                exact ⟨hFinEv, hFinIp, hFinPres⟩
            | error e =>
                rw [verify_stale_err n env bid s tok s2 g2 e hp' hst hE] at h
                cases h
                exact ⟨hFinEv, hFinIp, hFinPres⟩
          · rw [verify_fresh n env bid s tok hp' hst] at h
            cases h
            exact ⟨evolves_refl s, rfl, fun _ _ => rfl⟩
      · -- runComp (n+1)
        intro env bid c s tm s1 g r h
        cases c with
        | commit m =>
            rw [runComp_commit] at h
            by_cases hlt : (s.branches bid).last_modified < tm
            · rw [if_pos hlt] at h
              cases h
              refine ⟨⟨rfl, rfl, fun b => ?_, fun b => ?_⟩, rfl, fun b _ hbne => ?_,
                fun _ => ⟨?_, fun e he => by cases he⟩⟩
              · simp only [setBranch]
                by_cases hb : b = bid <;> simp [hb]
                omega
              · simp only [setBranch]
                by_cases hb : b = bid <;> simp [hb]
              · simp only [setBranch]
                simp [hbne]
              · simp only [setBranch]
                simp
            · rw [if_neg hlt] at h
              cases h
              exact ⟨evolves_refl s, rfl, fun _ _ _ => rfl, fun _ => ⟨rfl, fun _ _ => rfl⟩⟩
        | skip =>
            rw [runComp_skip] at h
            by_cases hlt : (s.branches bid).last_modified < tm
            · rw [if_pos hlt] at h
              cases h
              exact ⟨evolves_refl s, rfl, fun _ _ _ => rfl, fun _ => ⟨rfl, fun _ _ => rfl⟩⟩
            · rw [if_neg hlt] at h
              cases h
              exact ⟨evolves_refl s, rfl, fun _ _ _ => rfl, fun _ => ⟨rfl, fun _ _ => rfl⟩⟩
        | readLeaf i k =>
            rcases hE : runComp n env bid (k (s.leaves i).value) s
                (max tm (s.leaves i).last_modified) with ⟨sa, ga, ra⟩
            obtain ⟨hEv, hIp, hPres, hBid⟩ :=
              ihr env bid (k (s.leaves i).value) s _ sa ga ra hE
            cases ra with
            | ok co =>
                rw [runComp_readLeaf_ok n env bid i k s tm sa ga co hE] at h
                cases h
                exact ⟨hEv, hIp, hPres, fun hin =>
                  ⟨(hBid hin).1, fun e he => by cases he⟩⟩
            | error e =>
                rw [runComp_readLeaf_err n env bid i k s tm sa ga e hE] at h
                cases h
                exact ⟨hEv, hIp, hPres, fun hin =>
                  ⟨(hBid hin).1, fun e2 he2 => (hBid hin).2 e rfl⟩⟩
        | readBranch i k =>
            rcases hV : verify n env i s tm with ⟨sa, ga, ra⟩
            obtain ⟨hEva, hIpa, hPresa⟩ := ihv env i s tm sa ga ra hV
            cases ra with
            | error e =>
                rw [runComp_readBranch_verr n env bid i k s tm sa ga e hV] at h
                cases h
                exact ⟨hEva, hIpa, fun b hb _ => hPresa b hb, fun hin =>
                  ⟨by rw [hPresa bid hin], fun e2 _ => hPresa bid hin⟩⟩
            | ok out =>
                rcases hE : runComp n env bid (k out.value) sa out.token with ⟨sb, gb, rb⟩
                obtain ⟨hEvb, hIpb, hPresb, hBidb⟩ :=
                  ihr env bid (k out.value) sa out.token sb gb rb hE
                have hprog : ∀ b, s.inProgress b = true → sa.inProgress b = true := by
                  intro b hb
                  rw [hIpa]
                  exact hb
                cases rb with
                | ok co =>
                    rw [runComp_readBranch_ok n env bid i k s tm sa ga out sb gb co hV hE] at h
                    cases h
                    refine ⟨evolves_trans hEva hEvb, by rw [hIpb, hIpa],
                      fun b hb hbne => ?_, fun hin => ⟨?_, fun e he => by cases he⟩⟩
                    · rw [hPresb b (hprog b hb) hbne, hPresa b hb]
                    · rw [(hBidb (hprog bid hin)).1, hPresa bid hin]
                | error e =>
                    rw [runComp_readBranch_rerr n env bid i k s tm sa ga out sb gb e hV hE] at h
                    cases h
                    refine ⟨evolves_trans hEva hEvb, by rw [hIpb, hIpa],
                      fun b hb hbne => ?_, fun hin => ⟨?_, fun e2 he2 => ?_⟩⟩
                    · rw [hPresb b (hprog b hb) hbne, hPresa b hb]
                    · rw [(hBidb (hprog bid hin)).1, hPresa bid hin]
                    · rw [(hBidb (hprog bid hin)).2 e rfl, hPresa bid hin]

theorem verify_frame {fuel : Nat} {env : Nat → Comp} {bid : Nat} {s : GraphState}
    {tok : Nat} {s1 : GraphState} {g : List Nat} {r : Except VError VerifyOut}
    (h : verify fuel env bid s tok = (s1, g, r)) :
    Evolves s s1 ∧ s1.inProgress = s.inProgress ∧
      ∀ b, s.inProgress b = true → s1.branches b = s.branches b :=
  (frame_aux fuel).1 env bid s tok s1 g r h

theorem runComp_frame {fuel : Nat} {env : Nat → Comp} {bid : Nat} {c : Comp}
    {s : GraphState} {tm : Nat} {s1 : GraphState} {g : List Nat}
    {r : Except VError CompOut} (h : runComp fuel env bid c s tm = (s1, g, r)) :
    Evolves s s1 ∧ s1.inProgress = s.inProgress ∧
      (∀ b, s.inProgress b = true → b ≠ bid → s1.branches b = s.branches b) ∧
      (s.inProgress bid = true →
        (s1.branches bid).last_verified = (s.branches bid).last_verified ∧
        ∀ e, r = Except.error e → s1.branches bid = s.branches bid) :=
  (frame_aux fuel).2 env bid c s tm s1 g r h

theorem beginRecompute_branches (s : GraphState) (bid b : Nat) :
    (beginRecompute s bid).branches b =
      if b = bid then { s.branches bid with last_verified := s.revision }
      else s.branches b := by
  simp [beginRecompute, setInProgress, setBranch]

theorem beginRecompute_inProgress (s : GraphState) (bid b : Nat) :
    (beginRecompute s bid).inProgress b = if b = bid then true else s.inProgress b := by
  simp [beginRecompute, setInProgress, setBranch]

/-- Shape of a successful `verify` result: the value and token come from the
final branch record, and after the call the branch is verified at the
current revision and not mutably borrowed. -/
theorem verify_ok_shape {fuel : Nat} {env : Nat → Comp} {bid : Nat} {s : GraphState}
    {tok : Nat} {s1 : GraphState} {g : List Nat} {out : VerifyOut}
    (h : verify fuel env bid s tok = (s1, g, .ok out)) :
    out.value = (s1.branches bid).value ∧
    out.token = max tok (s1.branches bid).last_modified ∧
    s1.revision ≤ (s1.branches bid).last_verified ∧
    s.inProgress bid = false ∧ s1.inProgress bid = false := by
  cases fuel with
  | zero => rw [verify_zero] at h; cases h
  | succ n =>
      by_cases hp : s.inProgress bid = true
      · rw [verify_reenter n env bid s tok hp] at h; cases h
      · have hp' : s.inProgress bid = false := by simpa using hp
        by_cases hst : (s.branches bid).last_verified < s.revision
        · rcases hE : runComp n env bid (env bid) (beginRecompute s bid)
              (s.branches bid).last_modified with ⟨s2, g2, r2⟩
          cases r2 with
          | ok co =>
              rw [verify_stale_ok n env bid s tok s2 g2 co hp' hst hE] at h
              obtain ⟨hEv, hIp, _, hBid⟩ := runComp_frame hE
              have hin : (beginRecompute s bid).inProgress bid = true := by
                rw [beginRecompute_inProgress]; simp
              have hlv : (s2.branches bid).last_verified = s.revision := by
                rw [(hBid hin).1, beginRecompute_branches]; simp
              have hrev : s2.revision = s.revision := by
                have := hEv.1
                simpa [beginRecompute, setInProgress, setBranch] using this
              cases h
              refine ⟨rfl, rfl, ?_, hp', ?_⟩
              · show (setInProgress s2 bid false).revision ≤ _
                have : (setInProgress s2 bid false).revision = s2.revision := rfl
                rw [this, hrev]
                show s.revision ≤ (s2.branches bid).last_verified
                rw [hlv]
              · simp [setInProgress]
          | error e =>
              rw [verify_stale_err n env bid s tok s2 g2 e hp' hst hE] at h
              cases h
        · rw [verify_fresh n env bid s tok hp' hst] at h
          cases h
          exact ⟨rfl, rfl, Nat.le_of_not_lt hst, hp', hp'⟩

/-- Preservation of the well-formedness invariant, by joint induction on the
fuel. -/
theorem wf_aux : ∀ fuel : Nat,
    (∀ env bid s tok s1 g r, verify fuel env bid s tok = (s1, g, r) → WF s → WF s1) ∧
    (∀ env bid c s tm s1 g r, runComp fuel env bid c s tm = (s1, g, r) →
      WF s → tm ≤ s.revision → s.inProgress bid = true →
      s.revision ≤ (s.branches bid).last_verified → WF s1) := by
  intro fuel
  induction fuel with
  | zero =>
      constructor
      · intro env bid s tok s1 g r h hw
        rw [verify_zero] at h; cases h; exact hw
      · intro env bid c s tm s1 g r h hw _ _ _
        rw [runComp_zero] at h; cases h; exact hw
  | succ n ih =>
      obtain ⟨ihv, ihr⟩ := ih
      constructor
      · intro env bid s tok s1 g r h hw
        by_cases hp : s.inProgress bid = true
        · rw [verify_reenter n env bid s tok hp] at h; cases h; exact hw
        · have hp' : s.inProgress bid = false := by simpa using hp
          by_cases hst : (s.branches bid).last_verified < s.revision
          · rcases hE : runComp n env bid (env bid) (beginRecompute s bid)
                (s.branches bid).last_modified with ⟨s2, g2, r2⟩
            have hwb : WF (beginRecompute s bid) := by
              refine ⟨fun i => hw.1 i, fun b => ?_⟩
              rw [beginRecompute_branches]
              by_cases hb : b = bid
              · simp only [hb, if_pos rfl]
                exact ⟨le_trans (hw.2 bid).1 (hw.2 bid).2, le_refl _⟩
              · simp only [if_neg hb]
                exact hw.2 b
            have htm : (s.branches bid).last_modified ≤ (beginRecompute s bid).revision :=
              le_trans (hw.2 bid).1 (hw.2 bid).2
            have hin : (beginRecompute s bid).inProgress bid = true := by
              rw [beginRecompute_inProgress]; simp
            have hlv : (beginRecompute s bid).revision ≤
                ((beginRecompute s bid).branches bid).last_verified := by
              rw [beginRecompute_branches]; simp [beginRecompute, setInProgress, setBranch]
            have hw2 : WF s2 := ihr env bid (env bid) (beginRecompute s bid)
              (s.branches bid).last_modified s2 g2 r2 hE hwb htm hin hlv
            cases r2 with
            | ok co =>
                rw [verify_stale_ok n env bid s tok s2 g2 co hp' hst hE] at h
                cases h
                exact hw2
            | error e =>
                rw [verify_stale_err n env bid s tok s2 g2 e hp' hst hE] at h
                cases h
                exact hw2
          · rw [verify_fresh n env bid s tok hp' hst] at h; cases h; exact hw
      · intro env bid c s tm s1 g r h hw htm hin hlv
        cases c with
        | commit m =>
            rw [runComp_commit] at h
            by_cases hlt : (s.branches bid).last_modified < tm
            · rw [if_pos hlt] at h
              cases h
              refine ⟨fun i => hw.1 i, fun b => ?_⟩
              simp only [setBranch]
              by_cases hb : b = bid
              · simp only [hb, if_pos rfl]
                have hlvrev : (s.branches bid).last_verified ≤ s.revision := (hw.2 bid).2
                exact ⟨by simpa using le_trans htm (le_antisymm hlvrev hlv ▸ le_refl _),
                  (hw.2 bid).2⟩
              · simp only [if_neg hb]
                exact hw.2 b
            · rw [if_neg hlt] at h; cases h; exact hw
        | skip =>
            rw [runComp_skip] at h
            by_cases hlt : (s.branches bid).last_modified < tm
            · rw [if_pos hlt] at h; cases h; exact hw
            · rw [if_neg hlt] at h; cases h; exact hw
        | readLeaf i k =>
            rcases hE : runComp n env bid (k (s.leaves i).value) s
                (max tm (s.leaves i).last_modified) with ⟨sa, ga, ra⟩
            have hwa : WF sa := ihr env bid (k (s.leaves i).value) s
              (max tm (s.leaves i).last_modified) sa ga ra hE hw
              (max_le htm (hw.1 i)) hin hlv
            cases ra with
            | ok co =>
                rw [runComp_readLeaf_ok n env bid i k s tm sa ga co hE] at h
                cases h; exact hwa
            | error e =>
                rw [runComp_readLeaf_err n env bid i k s tm sa ga e hE] at h
                cases h; exact hwa
        | readBranch i k =>
            rcases hV : verify n env i s tm with ⟨sa, ga, ra⟩
            have hwa : WF sa := ihv env i s tm sa ga ra hV hw
            obtain ⟨hEva, hIpa, hPresa⟩ := verify_frame hV
            cases ra with
            | error e =>
                rw [runComp_readBranch_verr n env bid i k s tm sa ga e hV] at h
                cases h; exact hwa
            | ok out =>
                have hshape := verify_ok_shape hV
                have houtt : out.token ≤ sa.revision := by
                  rw [hshape.2.1, hEva.1]
                  refine max_le htm (le_trans (le_trans (hwa.2 i).1 (hwa.2 i).2) ?_)
                  exact le_of_eq hEva.1
                have hina : sa.inProgress bid = true := by rw [hIpa]; exact hin
                have hlva : sa.revision ≤ (sa.branches bid).last_verified := by
                  rw [hEva.1, hPresa bid hin]
                  exact hlv
                rcases hE : runComp n env bid (k out.value) sa out.token with ⟨sb, gb, rb⟩
                have hwb : WF sb := ihr env bid (k out.value) sa out.token sb gb rb hE
                  hwa houtt hina hlva
                cases rb with
                | ok co =>
                    rw [runComp_readBranch_ok n env bid i k s tm sa ga out sb gb co hV hE] at h
                    cases h; exact hwb
                | error e =>
                    rw [runComp_readBranch_rerr n env bid i k s tm sa ga out sb gb e hV hE] at h
                    cases h; exact hwb

/-- Ghost recompute-log facts, by joint induction on the fuel: the log of one
pass has no duplicates (each branch recomputes at most once per pass), every
logged branch was unverified for the current revision when the pass started,
and is verified for it afterwards. -/
theorem ghost_aux : ∀ fuel : Nat,
    (∀ env bid s tok s1 g r, verify fuel env bid s tok = (s1, g, r) →
      g.Nodup ∧ (∀ b ∈ g, (s.branches b).last_verified < s.revision) ∧
      (∀ b ∈ g, s.revision ≤ (s1.branches b).last_verified)) ∧
    (∀ env bid c s tm s1 g r, runComp fuel env bid c s tm = (s1, g, r) →
      g.Nodup ∧ (∀ b ∈ g, (s.branches b).last_verified < s.revision) ∧
      (∀ b ∈ g, s.revision ≤ (s1.branches b).last_verified)) := by
  intro fuel
  induction fuel with
  | zero =>
      constructor
      · intro env bid s tok s1 g r h
        rw [verify_zero] at h; cases h
        simp
      · intro env bid c s tm s1 g r h
        rw [runComp_zero] at h; cases h
        simp
  | succ n ih =>
      obtain ⟨ihv, ihr⟩ := ih
      have hbegin_rev : ∀ s bid, (beginRecompute s bid).revision = s.revision :=
        fun _ _ => rfl
      constructor
      · intro env bid s tok s1 g r h
        by_cases hp : s.inProgress bid = true
        · rw [verify_reenter n env bid s tok hp] at h; cases h; simp
        · have hp' : s.inProgress bid = false := by simpa using hp
          by_cases hst : (s.branches bid).last_verified < s.revision
          · rcases hE : runComp n env bid (env bid) (beginRecompute s bid)
                (s.branches bid).last_modified with ⟨s2, g2, r2⟩
            obtain ⟨nd2, hlt2, hge2⟩ :=
              ihr env bid (env bid) (beginRecompute s bid) _ s2 g2 r2 hE
            have hnotmem : bid ∉ g2 := by
              intro hmem
              have := hlt2 bid hmem
              rw [beginRecompute_branches] at this
              simp [hbegin_rev] at this
            have hcons : (bid :: g2).Nodup := List.nodup_cons.mpr ⟨hnotmem, nd2⟩
            have hsecond : ∀ b ∈ bid :: g2, (s.branches b).last_verified < s.revision := by
              intro b hb
              rcases List.mem_cons.mp hb with hb1 | hb2
              · rw [hb1]; exact hst
              · have hbne : b ≠ bid := fun hc => hnotmem (hc ▸ hb2)
                have := hlt2 b hb2
                rw [beginRecompute_branches, if_neg hbne] at this
                exact this
            have hin : (beginRecompute s bid).inProgress bid = true := by
              rw [beginRecompute_inProgress]; simp
            have hthird : ∀ s2' : GraphState, s2'.branches = s2.branches →
                (∀ b ∈ bid :: g2, s.revision ≤ (s2'.branches b).last_verified) := by
              intro s2' hbr b hb
              rw [hbr]
              rcases List.mem_cons.mp hb with hb1 | hb2
              · obtain ⟨_, _, _, hBid⟩ := runComp_frame hE
                rw [hb1, (hBid hin).1, beginRecompute_branches]
                simp
              · exact hge2 b hb2
            cases r2 with
            | ok co =>
                rw [verify_stale_ok n env bid s tok s2 g2 co hp' hst hE] at h
                cases h
                exact ⟨hcons, hsecond, hthird _ rfl⟩
            | error e =>
                rw [verify_stale_err n env bid s tok s2 g2 e hp' hst hE] at h
                cases h
                exact ⟨hcons, hsecond, hthird _ rfl⟩
          · rw [verify_fresh n env bid s tok hp' hst] at h; cases h; simp
      · intro env bid c s tm s1 g r h
        cases c with
        | commit m =>
            rw [runComp_commit] at h
            by_cases hlt : (s.branches bid).last_modified < tm
            · rw [if_pos hlt] at h; cases h; simp
            · rw [if_neg hlt] at h; cases h; simp
        | skip =>
            rw [runComp_skip] at h
            by_cases hlt : (s.branches bid).last_modified < tm
            · rw [if_pos hlt] at h; cases h; simp
            · rw [if_neg hlt] at h; cases h; simp
        | readLeaf i k =>
            rcases hE : runComp n env bid (k (s.leaves i).value) s
                (max tm (s.leaves i).last_modified) with ⟨sa, ga, ra⟩
            obtain ⟨nda, hlta, hgea⟩ := ihr env bid (k (s.leaves i).value) s _ sa ga ra hE
            cases ra with
            | ok co =>
                rw [runComp_readLeaf_ok n env bid i k s tm sa ga co hE] at h
                cases h
                exact ⟨nda, hlta, hgea⟩
            | error e =>
                rw [runComp_readLeaf_err n env bid i k s tm sa ga e hE] at h
                cases h
                exact ⟨nda, hlta, hgea⟩
        | readBranch i k =>
            rcases hV : verify n env i s tm with ⟨sa, ga, ra⟩
            obtain ⟨nda, hlta, hgea⟩ := ihv env i s tm sa ga ra hV
            obtain ⟨hEva, _, _⟩ := verify_frame hV
            cases ra with
            | error e =>
                rw [runComp_readBranch_verr n env bid i k s tm sa ga e hV] at h
                cases h
                exact ⟨nda, hlta, hgea⟩
            | ok out =>
                rcases hE : runComp n env bid (k out.value) sa out.token with ⟨sb, gb, rb⟩
                obtain ⟨ndb, hltb, hgeb⟩ := ihr env bid (k out.value) sa out.token sb gb rb hE
                obtain ⟨hEvb, _, _⟩ := runComp_frame hE
                have hdisj : ga.Disjoint gb := by
                  intro b hba hbb
                  have h1 := hgea b hba
                  have h2 := hltb b hbb
                  rw [hEva.1] at h2
                  exact absurd h1 (Nat.not_le_of_lt h2)
                have hnd : (ga ++ gb).Nodup := List.nodup_append.mpr ⟨nda, ndb, hdisj⟩
                have hsecond : ∀ b ∈ ga ++ gb, (s.branches b).last_verified < s.revision := by
                  intro b hb
                  rcases List.mem_append.mp hb with hb1 | hb2
                  · exact hlta b hb1
                  · have h2 := hltb b hb2
                    rw [hEva.1] at h2
                    exact Nat.lt_of_le_of_lt (hEva.2.2.2 b) h2
                have hthird : ∀ b ∈ ga ++ gb, s.revision ≤ (sb.branches b).last_verified := by
                  intro b hb
                  rcases List.mem_append.mp hb with hb1 | hb2
                  · exact le_trans (hgea b hb1) (hEvb.2.2.2 b)
                  · have := hgeb b hb2
                    rw [hEva.1] at this
                    exact this
                cases rb with
                | ok co =>
                    rw [runComp_readBranch_ok n env bid i k s tm sa ga out sb gb co hV hE] at h
                    cases h
                    exact ⟨hnd, hsecond, hthird⟩
                | error e =>
                    rw [runComp_readBranch_rerr n env bid i k s tm sa ga out sb gb e hV hE] at h
                    cases h
                    exact ⟨hnd, hsecond, hthird⟩

/-- Token-aggregation facts about a successful closure run for branch `bid`
(whose `RefCell` is mutably borrowed throughout, so nothing else can touch
its record): the final token is the max-fold of the seed and the logged
reads, and the cached value is mutated exactly when the fold strictly
exceeds the branch's `last_modified`; a run that never called
`ParentToken::compute` can only succeed when it does not. -/
theorem token_aux : ∀ fuel : Nat, ∀ env bid c s tm s1 g co,
    s.inProgress bid = true →
    runComp fuel env bid c s tm = (s1, g, .ok co) →
    co.token = List.foldl max tm co.reads ∧
    tm ≤ co.token ∧
    (co.mutated = true ↔ (s.branches bid).last_modified < co.token) ∧
    (co.mutated = false → s1.branches bid = s.branches bid) ∧
    (co.mutated = true → (s1.branches bid).last_modified = co.token) ∧
    (co.committed = false → ¬ (s.branches bid).last_modified < co.token) := by
  intro fuel
  induction fuel with
  | zero =>
      intro env bid c s tm s1 g co _ h
      rw [runComp_zero] at h
      cases h
  | succ n ih =>
      intro env bid c s tm s1 g co hin h
      cases c with
      | commit m =>
          rw [runComp_commit] at h
          by_cases hlt : (s.branches bid).last_modified < tm
          · rw [if_pos hlt] at h
            cases h
            refine ⟨rfl, le_refl _, by simp [hlt], by simp, fun _ => ?_, by simp⟩
            simp [setBranch]
          · rw [if_neg hlt] at h
            cases h
            exact ⟨rfl, le_refl _, by simp [hlt], fun _ => rfl, by simp, by simp⟩
      | skip =>
          rw [runComp_skip] at h
          by_cases hlt : (s.branches bid).last_modified < tm
          · rw [if_pos hlt] at h
            cases h
          · rw [if_neg hlt] at h
            cases h
            exact ⟨rfl, le_refl _, by simp [hlt], fun _ => rfl, by simp, fun _ => hlt⟩
      | readLeaf i k =>
          rcases hE : runComp n env bid (k (s.leaves i).value) s
              (max tm (s.leaves i).last_modified) with ⟨sa, ga, ra⟩
          cases ra with
          | ok co2 =>
              rw [runComp_readLeaf_ok n env bid i k s tm sa ga co2 hE] at h
              cases h
              obtain ⟨h1, h2, h3, h4, h5, h6⟩ :=
                ih env bid (k (s.leaves i).value) s _ _ _ co2 hin hE
              exact ⟨by simpa using h1, le_trans (le_max_left _ _) h2, h3, h4, h5, h6⟩
          | error e =>
              rw [runComp_readLeaf_err n env bid i k s tm sa ga e hE] at h
              cases h
      | readBranch i k =>
          rcases hV : verify n env i s tm with ⟨sa, ga, ra⟩
          cases ra with
          | error e =>
              rw [runComp_readBranch_verr n env bid i k s tm sa ga e hV] at h
              cases h
          | ok out =>
              obtain ⟨hEva, hIpa, hPresa⟩ := verify_frame hV
              have hshape := verify_ok_shape hV
              have hina : sa.inProgress bid = true := by rw [hIpa]; exact hin
              have hpres : sa.branches bid = s.branches bid := hPresa bid hin
              rcases hE : runComp n env bid (k out.value) sa out.token with ⟨sb, gb, rb⟩
              cases rb with
              | ok co2 =>
                  rw [runComp_readBranch_ok n env bid i k s tm sa ga out sb gb co2 hV hE] at h
                  cases h
                  obtain ⟨h1, h2, h3, h4, h5, h6⟩ :=
                    ih env bid (k out.value) sa out.token _ _ co2 hina hE
                  have htokfold : co2.token =
                      List.foldl max tm ((sa.branches i).last_modified :: co2.reads) := by
                    rw [h1, hshape.2.1]
                    rfl
                  refine ⟨by simpa using htokfold, ?_, ?_, ?_, ?_, ?_⟩
                  · exact le_trans (le_trans (le_max_left _ _) (le_of_eq hshape.2.1.symm)) h2
                  · rw [← hpres]; simpa using h3
                  · intro hm
                    rw [h4 hm, hpres]
                  · intro hm
                    simpa using h5 hm
                  · rw [← hpres]; simpa using h6
              | error e =>
                  rw [runComp_readBranch_rerr n env bid i k s tm sa ga out sb gb e hV hE] at h
                  cases h

/-- A running maximum strictly exceeds its seed iff some folded element
strictly exceeds it. -/
theorem lt_foldl_max (l : List Nat) (a x : Nat) :
    x < List.foldl max a l ↔ x < a ∨ ∃ r ∈ l, x < r := by
  induction l generalizing a with
  | nil => simp
  | cons hd tl ih =>
      rw [List.foldl_cons, ih (max a hd)]
      simp only [lt_max_iff, List.mem_cons]
      constructor
      · rintro ((h | h) | ⟨r, hr, hx⟩)
        · exact Or.inl h
        · exact Or.inr ⟨hd, Or.inl rfl, h⟩
        · exact Or.inr ⟨r, Or.inr hr, hx⟩
      · rintro (h | ⟨r, hr | hr, hx⟩)
        · exact Or.inl (Or.inl h)
        · exact Or.inl (Or.inr (hr ▸ hx))
        · exact Or.inr ⟨r, hr, hx⟩

/-- Inversion: a successful `verify` whose ghost record shows the closure
ran must have gone through the stale path. -/
theorem verify_ok_run_some {fuel : Nat} {env : Nat → Comp} {bid : Nat} {s : GraphState}
    {tok : Nat} {s1 : GraphState} {g : List Nat} {out : VerifyOut} {co : CompOut}
    (h : verify fuel env bid s tok = (s1, g, .ok out)) (hrun : out.run = some co) :
    ∃ n s2 g2, fuel = n + 1 ∧ s.inProgress bid = false ∧
      (s.branches bid).last_verified < s.revision ∧
      runComp n env bid (env bid) (beginRecompute s bid)
        (s.branches bid).last_modified = (s2, g2, .ok co) ∧
      s1 = setInProgress s2 bid false ∧ g = bid :: g2 ∧
      out = { value := (s2.branches bid).value,
              token := max tok (s2.branches bid).last_modified, run := some co } := by
  cases fuel with
  | zero => rw [verify_zero] at h; cases h
  | succ n =>
      by_cases hp : s.inProgress bid = true
      · rw [verify_reenter n env bid s tok hp] at h; cases h
      · have hp' : s.inProgress bid = false := by simpa using hp
        by_cases hst : (s.branches bid).last_verified < s.revision
        · rcases hE : runComp n env bid (env bid) (beginRecompute s bid)
              (s.branches bid).last_modified with ⟨s2, g2, r2⟩
          cases r2 with
          | ok co2 =>
              rw [verify_stale_ok n env bid s tok s2 g2 co2 hp' hst hE] at h
              cases h
              have hco : co2 = co := by
                have := hrun
                simp at this
                exact this
              subst hco
              exact ⟨n, s2, g2, rfl, hp', hst, hE, rfl, rfl, rfl⟩
          | error e =>
              rw [verify_stale_err n env bid s tok s2 g2 e hp' hst hE] at h
              cases h
        · rw [verify_fresh n env bid s tok hp' hst] at h
          cases h
          cases hrun

/-! Claim theorems. -/

/-- C1.  Minimal recomputation: whenever a `verify` call runs the recompute
closure (the staleness check fires, witnessed by `out.run = some co`), the
commit mutation runs if and only if some dependency actually read during the
closure has a `last_modified` revision strictly greater than the branch's
current `last_modified`; when it does not run, the branch's cached value and
`last_modified` are left unchanged.  In particular, after mutating a leaf
the closure does not read, the recompute is a no-op on the cache. -/
theorem claim_minimal_recomputation {fuel : Nat} {env : Nat → Comp} {bid : Nat}
    {s : GraphState} {tok : Nat} {s1 : GraphState} {g : List Nat} {out : VerifyOut}
    {co : CompOut}
    (h : verify fuel env bid s tok = (s1, g, Except.ok out)) (hrun : out.run = some co) :
    (co.mutated = true ↔ ∃ r ∈ co.reads, (s.branches bid).last_modified < r) ∧
    (co.mutated = false →
      (s1.branches bid).value = (s.branches bid).value ∧
      (s1.branches bid).last_modified = (s.branches bid).last_modified) := by
  obtain ⟨n, s2, g2, hfuel, hp', hst, hE, hs1, hg, hout⟩ := verify_ok_run_some h hrun
  have hin : (beginRecompute s bid).inProgress bid = true := by
    rw [beginRecompute_inProgress]; simp
  obtain ⟨h1, h2, h3, h4, h5, h6⟩ := token_aux n env bid (env bid) (beginRecompute s bid)
    (s.branches bid).last_modified s2 g2 co hin hE
  have hblm : ((beginRecompute s bid).branches bid).last_modified =
      (s.branches bid).last_modified := by
    rw [beginRecompute_branches]; simp
  constructor
  · rw [h3, hblm, h1, lt_foldl_max]
    simp
  · intro hm
    have hpres := h4 hm
    rw [hs1]
    have hbr : (setInProgress s2 bid false).branches = s2.branches := rfl
    constructor
    · rw [hbr, hpres, beginRecompute_branches]
      simp
    · rw [hbr, hpres, beginRecompute_branches]
      simp

/-- Witness for C1, the repository scenario: after `b := 6` and a verified
recompute of `sum_a_b = 7`, mutating the unrelated leaf `c` and verifying
again runs the closure (run record present) but mutates nothing: no read
revision exceeds the branch's `last_modified` 1, and value 7 and stamp 1
survive. -/
theorem claim_minimal_recomputation_witness :
    (verify 10 envMin 0 sMin3 0).2.2 = Except.ok outMin ∧
    outMin.run = some coMin ∧
    coMin.mutated = false ∧
    (coMin.mutated = true ↔ ∃ r ∈ coMin.reads, (sMin3.branches 0).last_modified < r) ∧
    ((verify 10 envMin 0 sMin3 0).1.branches 0).value = (sMin3.branches 0).value ∧
    ((verify 10 envMin 0 sMin3 0).1.branches 0).last_modified =
      (sMin3.branches 0).last_modified := by
  have h : verify 10 envMin 0 sMin3 0 =
      ((verify 10 envMin 0 sMin3 0).1, (verify 10 envMin 0 sMin3 0).2.1,
        Except.ok outMin) := rfl
  have hmain := claim_minimal_recomputation h (show outMin.run = some coMin from rfl)
  exact ⟨rfl, rfl, rfl, hmain.1, (hmain.2 rfl).1, (hmain.2 rfl).2⟩

/-- C2.  Cycle detection: re-entering a branch that is being recomputed
further up the call chain makes that `verify` call fail immediately with the
cycle error, leaving the state untouched (no blocking, no retrying); and an
error raised inside a recompute closure propagates out of the enclosing
`verify` call unchanged (so it unwinds to the outermost caller). -/
theorem claim_cycle_detection (fuel : Nat) (env : Nat → Comp) (bid : Nat)
    (s : GraphState) (tok : Nat) :
    (0 < fuel → s.inProgress bid = true →
      verify fuel env bid s tok = (s, [], Except.error VError.cycleDetected)) ∧
    (∀ n s2 g2 e, fuel = n + 1 → s.inProgress bid = false →
      (s.branches bid).last_verified < s.revision →
      runComp n env bid (env bid) (beginRecompute s bid)
        (s.branches bid).last_modified = (s2, g2, Except.error e) →
      verify fuel env bid s tok = (setInProgress s2 bid false, bid :: g2,
        Except.error e)) := by
  constructor
  · intro hf hp
    obtain ⟨m, rfl⟩ := Nat.exists_eq_succ_of_ne_zero (Nat.pos_iff_ne_zero.mp hf)
    exact verify_reenter m env bid s tok hp
  · rintro n s2 g2 e rfl hp' hst hE
    exact verify_stale_err n env bid s tok s2 g2 e hp' hst hE

/-- Witness for C2, the repository cycle test (branch 0 reads branch 1 which
reads branch 0): a re-entered branch fails immediately with the cycle error,
and the outermost `verify` call on branch 0 surfaces exactly that error. -/
theorem claim_cycle_detection_witness :
    verify 5 envCyc 0 (setInProgress sCyc 0 true) 0 =
      (setInProgress sCyc 0 true, [], Except.error VError.cycleDetected) ∧
    verify 10 envCyc 0 sCyc 0 =
      (setInProgress (runComp 9 envCyc 0 (envCyc 0) (beginRecompute sCyc 0)
          ((sCyc.branches 0).last_modified)).1 0 false,
        0 :: (runComp 9 envCyc 0 (envCyc 0) (beginRecompute sCyc 0)
          ((sCyc.branches 0).last_modified)).2.1,
        Except.error VError.cycleDetected) := by
  constructor
  · exact (claim_cycle_detection 5 envCyc 0 (setInProgress sCyc 0 true) 0).1
      (by decide) rfl
  · exact (claim_cycle_detection 10 envCyc 0 sCyc 0).2 9 _ _ VError.cycleDetected
      rfl rfl (by decide) rfl

/-- C3.  `replace(leaf, value)`: on an equal value it is a complete no-op
(identical state — in particular revision and `last_modified` unchanged —
and the old value returned); on a different value it advances the revision
by exactly one, stamps the leaf with the new revision, stores the new value,
returns the old one, and touches nothing else. -/
theorem claim_replace_semantics (s : GraphState) (i v : Nat) :
    (v = (s.leaves i).value → replace s i v = (s, (s.leaves i).value)) ∧
    (v ≠ (s.leaves i).value →
      (replace s i v).1.revision = s.revision + 1 ∧
      ((replace s i v).1.leaves i).last_modified = s.revision + 1 ∧
      ((replace s i v).1.leaves i).value = v ∧
      (replace s i v).2 = (s.leaves i).value ∧
      (∀ j, j ≠ i → (replace s i v).1.leaves j = s.leaves j) ∧
      (replace s i v).1.branches = s.branches) := by
  constructor
  · intro hv
    simp [replace, hv]
  · intro hv
    refine ⟨?_, ?_, ?_, ?_, ?_, ?_⟩ <;>
      simp [replace, hv, setLeaf]
    intro j hj
    simp [hj]

/-- Witness for C3: on `sRep` (revision 3, leaf 0 holding 4 stamped at 2),
rewriting 4 is a no-op while rewriting 5 advances the revision to 4, stamps
the leaf at 4 and returns 4. -/
theorem claim_replace_semantics_witness :
    replace sRep 0 4 = (sRep, (sRep.leaves 0).value) ∧
    (replace sRep 0 5).1.revision = sRep.revision + 1 ∧
    ((replace sRep 0 5).1.leaves 0).last_modified = sRep.revision + 1 ∧
    ((replace sRep 0 5).1.leaves 0).value = 5 ∧
    (replace sRep 0 5).2 = (sRep.leaves 0).value ∧
    (replace sRep 0 5).1.branches = sRep.branches := by
  have h1 := (claim_replace_semantics sRep 0 4).1 (by decide)
  have h2 := (claim_replace_semantics sRep 0 5).2 (by decide)
  exact ⟨h1, h2.1, h2.2.1, h2.2.2.1, h2.2.2.2.1, h2.2.2.2.2.2⟩

/-- C4.  `replace_always(leaf, value)` (modelled from the spec, absent from
`src`): for every leaf and every value — including one equal to the current
value — it advances the revision by exactly one, stamps the leaf, stores the
value and returns the old one; on unequal values it coincides with
`replace`. -/
theorem claim_replace_always_semantics (s : GraphState) (i v : Nat) :
    (replace_always s i v).1.revision = s.revision + 1 ∧
    ((replace_always s i v).1.leaves i).last_modified = s.revision + 1 ∧
    ((replace_always s i v).1.leaves i).value = v ∧
    (replace_always s i v).2 = (s.leaves i).value ∧
    (∀ j, j ≠ i → (replace_always s i v).1.leaves j = s.leaves j) ∧
    (replace_always s i v).1.branches = s.branches ∧
    (v ≠ (s.leaves i).value → replace_always s i v = replace s i v) := by
  refine ⟨rfl, ?_, ?_, rfl, ?_, rfl, ?_⟩
  · simp [replace_always, setLeaf]
  · simp [replace_always, setLeaf]
  · intro j hj
    simp [replace_always, setLeaf, hj]
  · intro hv
    simp [replace, replace_always, hv]

/-- Witness for C4: on `sRep`, force-writing the value 4 already present
still advances the revision to 4 and restamps the leaf, and force-writing 5
coincides with `replace`. -/
theorem claim_replace_always_semantics_witness :
    (replace_always sRep 0 4).1.revision = sRep.revision + 1 ∧
    ((replace_always sRep 0 4).1.leaves 0).last_modified = sRep.revision + 1 ∧
    ((replace_always sRep 0 4).1.leaves 0).value = 4 ∧
    (replace_always sRep 0 4).2 = (sRep.leaves 0).value ∧
    replace_always sRep 0 5 = replace sRep 0 5 := by
  have h1 := claim_replace_always_semantics sRep 0 4
  have h2 := (claim_replace_always_semantics sRep 0 5).2.2.2.2.2.2 (by decide)
  exact ⟨h1.1, h1.2.1, h1.2.2.1, h1.2.2.2.1, h2⟩

/-- Counterexample to C5 as stated: a branch freshly created by the branch
factory (`sSeed.branches 0 = mkBranch sSeed 42`) is already verified as of
its creation revision, so the first `verify` call does not invoke the
recompute closure (`run = none`, empty recompute log) and returns the
trusted seed 42 with the state untouched. -/
theorem claim_first_access_counterexample :
    sSeed.branches 0 = mkBranch sSeed 42 ∧
    verify 5 envSeed 0 sSeed 0 =
      (sSeed, [], Except.ok { value := 42, token := 0, run := none }) :=
  ⟨rfl, rfl⟩

/-- C5 as amended: a branch created by the branch factory is stamped
`last_verified = last_modified = creation revision` with its seed trusted;
a `verify` call invokes the recompute closure iff the graph's revision is by
then strictly greater than the creation revision (in particular the first
verify after any effective mutation recomputes, while a first verify at the
creation revision returns the seed without recomputing). -/
theorem claim_first_access_amended (fuel : Nat) (env : Nat → Comp) (bid : Nat)
    (s s0 : GraphState) (v : Nat) (tok : Nat)
    (hf : 0 < fuel) (hp : s.inProgress bid = false)
    (hb : s.branches bid = mkBranch s0 v) :
    bid ∈ (verify fuel env bid s tok).2.1 ↔ s0.revision < s.revision := by
  obtain ⟨n, rfl⟩ := Nat.exists_eq_succ_of_ne_zero (Nat.pos_iff_ne_zero.mp hf)
  have hlv : (s.branches bid).last_verified = s0.revision := by rw [hb]; rfl
  by_cases hst : (s.branches bid).last_verified < s.revision
  · rcases hE : runComp n env bid (env bid) (beginRecompute s bid)
        (s.branches bid).last_modified with ⟨s2, g2, r2⟩
    cases r2 with
    | ok co =>
        rw [verify_stale_ok n env bid s tok s2 g2 co hp hst hE]
        exact iff_of_true (List.mem_cons_self bid g2) (hlv ▸ hst)
    | error e =>
        rw [verify_stale_err n env bid s tok s2 g2 e hp hst hE]
        exact iff_of_true (List.mem_cons_self bid g2) (hlv ▸ hst)
  · rw [verify_fresh n env bid s tok hp hst]
    refine iff_of_false (List.not_mem_nil bid) (fun hc => hst ?_)
    rw [hlv]
    exact hc

/-- Witness for C5 as amended: after one effective mutation (revision 1),
the first verify of the branch created at revision 0 does recompute. -/
theorem claim_first_access_amended_witness :
    (0 < 5) ∧ sSeed1.inProgress 0 = false ∧ sSeed1.branches 0 = mkBranch sSeed 42 ∧
    ((0 ∈ (verify 5 envSeed 0 sSeed1 0).2.1) ↔ sSeed.revision < sSeed1.revision) ∧
    0 ∈ (verify 5 envSeed 0 sSeed1 0).2.1 := by
  refine ⟨by decide, rfl, rfl, ?_, by decide⟩
  exact claim_first_access_amended 5 envSeed 0 sSeed1 sSeed 42 0 (by decide) rfl rfl

/-- C6.  Monotonicity: under the well-formedness invariant (which holds at
construction and is preserved by every operation), `replace` never decreases
the revision (and advances it by exactly one on an effective mutation)
without touching any branch, and `verify` never decreases any branch's
`last_modified` or `last_verified`; after any `verify` call — and at
construction — every branch satisfies `last_verified ≥ last_modified`. -/
theorem claim_monotonicity (s : GraphState) (i v : Nat) (fuel : Nat)
    (env : Nat → Comp) (bid : Nat) (tok : Nat) (hw : WF s) :
    (s.revision ≤ (replace s i v).1.revision ∧
      (v ≠ (s.leaves i).value → (replace s i v).1.revision = s.revision + 1) ∧
      (replace s i v).1.branches = s.branches ∧ WF (replace s i v).1) ∧
    (∀ s1 g r, verify fuel env bid s tok = (s1, g, r) →
      WF s1 ∧
      (∀ b, (s.branches b).last_modified ≤ (s1.branches b).last_modified) ∧
      (∀ b, (s.branches b).last_verified ≤ (s1.branches b).last_verified) ∧
      (∀ b, (s1.branches b).last_modified ≤ (s1.branches b).last_verified)) ∧
    (∀ v2, (mkBranch s v2).last_modified ≤ (mkBranch s v2).last_verified ∧
      (mkLeaf s v2).last_modified ≤ s.revision) := by
  refine ⟨?_, ?_, fun v2 => ⟨le_refl _, le_refl _⟩⟩
  · by_cases hv : v = (s.leaves i).value
    · have hrw : replace s i v = (s, v) := by simp [replace, hv]
      rw [hrw]
      exact ⟨le_refl _, fun hne => absurd hv hne, rfl, hw⟩
    · have hrw : replace s i v =
          (setLeaf { s with revision := s.revision + 1 } i
            { value := v, last_modified := s.revision + 1 }, (s.leaves i).value) := by
        simp [replace, hv]
      rw [hrw]
      refine ⟨Nat.le_succ _, fun _ => rfl, rfl, fun j => ?_, fun b => ?_⟩
      · simp only [setLeaf]
        by_cases hj : j = i
        · simp [hj]
        · simp only [if_neg hj]
          exact le_trans (hw.1 j) (Nat.le_succ _)
      · exact ⟨(hw.2 b).1, le_trans (hw.2 b).2 (Nat.le_succ _)⟩
  · intro s1 g r h
    have hw1 := (wf_aux fuel).1 env bid s tok s1 g r h hw
    obtain ⟨hEv, _, _⟩ := verify_frame h
    exact ⟨hw1, hEv.2.2.1, hEv.2.2.2, fun b => (hw1.2 b).1⟩

/-- Witness for C6 on `sMon` (revision 1, branch 0 stale): the effective
rewrite of leaf 0 to 2 bumps the revision to 2 and leaves branches alone,
and after verifying branch 0 its stamps have not decreased and satisfy
`last_verified ≥ last_modified`. -/
theorem claim_monotonicity_witness :
    sMon.revision ≤ (replace sMon 0 2).1.revision ∧
    (replace sMon 0 2).1.revision = sMon.revision + 1 ∧
    (replace sMon 0 2).1.branches = sMon.branches ∧
    (sMon.branches 0).last_modified ≤
      ((verify 10 envMin 0 sMon 0).1.branches 0).last_modified ∧
    (sMon.branches 0).last_verified ≤
      ((verify 10 envMin 0 sMon 0).1.branches 0).last_verified ∧
    ((verify 10 envMin 0 sMon 0).1.branches 0).last_modified ≤
      ((verify 10 envMin 0 sMon 0).1.branches 0).last_verified := by
  have hw : WF sMon := by
    refine ⟨fun i => ?_, fun b => ?_⟩
    · by_cases hi : i = 1 <;> simp [sMon, hi]
    · simp [sMon]
  have hmain := claim_monotonicity sMon 0 2 10 envMin 0 0 hw
  have hver := hmain.2.1 (verify 10 envMin 0 sMon 0).1 (verify 10 envMin 0 sMon 0).2.1
    (verify 10 envMin 0 sMon 0).2.2 rfl
  exact ⟨hmain.1.1, hmain.1.2.1 (by decide), hmain.1.2.2.1,
    hver.2.1 0, hver.2.2.1 0, hver.2.2.2 0⟩

/-- C7.  Idempotence and diamond reuse: after a successful `verify`, a second
`verify` of the same branch with no intervening mutation returns the very
same state (no recompute: empty log and `run = none`) and an equal value;
and within any single pass no branch's recompute closure runs twice (the
ghost recompute log has no duplicates), so a branch shared by two siblings
recomputes at most once and both siblings read the same cached record. -/
theorem claim_idempotence_diamond {fuel : Nat} {env : Nat → Comp} {bid : Nat}
    {s : GraphState} {tok : Nat} {s1 : GraphState} {g : List Nat} {out : VerifyOut}
    (h : verify fuel env bid s tok = (s1, g, Except.ok out)) :
    (∀ fuel2 tok2, verify (fuel2 + 1) env bid s1 tok2 =
      (s1, [], Except.ok { value := out.value,
                           token := max tok2 (s1.branches bid).last_modified,
                           run := none })) ∧
    g.Nodup := by
  obtain ⟨hval, htok, hlv, hp0, hp1⟩ := verify_ok_shape h
  refine ⟨fun fuel2 tok2 => ?_, ((ghost_aux fuel).1 env bid s tok s1 g _ h).1⟩
  rw [verify_fresh fuel2 env bid s1 tok2 hp1 (not_lt.mpr hlv), hval]

/-- Witness for C7 on the diamond (branch 3 reads branches 1 and 2, which
both read branch 0): one pass recomputes each branch exactly once — the log
is `[3, 1, 0, 2]`, without duplicates — and an immediate second verify of
branch 3 returns the same state and value 13 with no recompute. -/
theorem claim_idempotence_diamond_witness :
    (verify 20 envDia 3 sDia 0).2.1 = [3, 1, 0, 2] ∧
    (verify 20 envDia 3 sDia 0).2.2 = Except.ok outDia ∧
    ((verify 20 envDia 3 sDia 0).2.1).Nodup ∧
    verify (7 + 1) envDia 3 (verify 20 envDia 3 sDia 0).1 0 =
      ((verify 20 envDia 3 sDia 0).1, [],
        Except.ok { value := outDia.value,
                    token := max 0 (((verify 20 envDia 3 sDia 0).1).branches 3).last_modified,
                    run := none }) := by
  have h : verify 20 envDia 3 sDia 0 =
      ((verify 20 envDia 3 sDia 0).1, (verify 20 envDia 3 sDia 0).2.1,
        Except.ok outDia) := rfl
  have hmain := claim_idempotence_diamond h
  exact ⟨rfl, rfl, hmain.2, hmain.1 7 0⟩

/-- Counterexample to C8 as stated: on `sSkip` the staleness check invokes
branch 0's recompute closure, which returns without ever calling the
terminal commit (`run = some coSkip`, `coSkip.committed = false`), yet no
contract-violation error is reported — the call succeeds with the old cached
value, because no dependency read was newer than the branch. -/
theorem claim_missed_commit_counterexample :
    (verify 2 envSkip 0 sSkip 0).2.2 = Except.ok outSkip ∧
    (verify 2 envSkip 0 sSkip 0).2.1 = [0] ∧
    outSkip.run = some coSkip ∧
    coSkip.committed = false ∧
    (verify 2 envSkip 0 sSkip 0).2.2 ≠ Except.error VError.forgotToRecompute := by
  refine ⟨rfl, rfl, rfl, rfl, fun hc => ?_⟩
  rw [show (verify 2 envSkip 0 sSkip 0).2.2 = Except.ok outSkip from rfl] at hc
  cases hc

/-- C8 as amended: the missed-commit check runs at the end of the recompute
step (in the token's `Drop`, skipped during unwinding) and reports
`forgotToRecompute` iff the token's aggregated maximum strictly exceeds the
branch's `last_modified` — exactly when skipping the commit would leave a
stale cache; consequently a closure run that returned without committing and
went unreported had no dependency newer than the branch, and the cached
value is unchanged. -/
theorem claim_missed_commit_amended (fuel : Nat) (env : Nat → Comp) (bid : Nat)
    (s : GraphState) (tm : Nat) :
    (runComp (fuel + 1) env bid Comp.skip s tm =
      if (s.branches bid).last_modified < tm then
        (s, [], Except.error VError.forgotToRecompute)
      else
        (s, [], Except.ok { token := tm, reads := [], committed := false,
                            mutated := false })) ∧
    (∀ tok s1 g out co, verify fuel env bid s tok = (s1, g, Except.ok out) →
      out.run = some co → co.committed = false →
      (¬ ∃ r ∈ co.reads, (s.branches bid).last_modified < r) ∧
      (s1.branches bid).value = (s.branches bid).value) := by
  constructor
  · exact runComp_skip fuel env bid s tm
  · intro tok s1 g out co h hrun hcom
    obtain ⟨n, s2, g2, hfuel, hp', hst, hE, hs1, hg, hout⟩ := verify_ok_run_some h hrun
    have hin : (beginRecompute s bid).inProgress bid = true := by
      rw [beginRecompute_inProgress]; simp
    obtain ⟨h1, h2, h3, h4, h5, h6⟩ := token_aux n env bid (env bid)
      (beginRecompute s bid) (s.branches bid).last_modified s2 g2 co hin hE
    have hblm : ((beginRecompute s bid).branches bid).last_modified =
        (s.branches bid).last_modified := by
      rw [beginRecompute_branches]; simp
    have hnost := h6 hcom
    rw [hblm] at hnost
    constructor
    · rintro ⟨r, hr, hlt⟩
      apply hnost
      rw [h1, lt_foldl_max]
      exact Or.inr ⟨r, hr, hlt⟩
    · have hmut : co.mutated = false := by
        cases hmu : co.mutated
        · rfl
        · exact absurd ((hblm ▸ h3).mp hmu) hnost
      have hpres := h4 hmut
      rw [hs1]
      have hbr : (setInProgress s2 bid false).branches = s2.branches := rfl
      rw [hbr, hpres, beginRecompute_branches]
      simp

/-- Witness for C8 as amended: with the token seeded above the branch's
`last_modified`, a skipped commit is reported as `forgotToRecompute`; and on
`sSkip` the successful uncommitted run indeed had no newer dependency and
left the cached value 5 unchanged. -/
theorem claim_missed_commit_amended_witness :
    runComp 1 envSkip 0 Comp.skip sSkip 5 = (sSkip, [], Except.error VError.forgotToRecompute) ∧
    (¬ ∃ r ∈ coSkip.reads, (sSkip.branches 0).last_modified < r) ∧
    ((verify 2 envSkip 0 sSkip 0).1.branches 0).value = (sSkip.branches 0).value := by
  have h := (claim_missed_commit_amended 0 envSkip 0 sSkip 5).1
  have h2 := (claim_missed_commit_amended 2 envSkip 0 sSkip 0).2 0
    (verify 2 envSkip 0 sSkip 0).1 (verify 2 envSkip 0 sSkip 0).2.1 outSkip coSkip
    rfl rfl rfl
  refine ⟨?_, h2.1, h2.2⟩
  rw [h, if_pos (show (sSkip.branches 0).last_modified < 5 by decide)]

/-- C9.  Exclusive-acquisition failure means cycle: `try_borrow_mut` on the
branch's interior fails exactly when that branch's `RefCell` is held by a
recompute further up the call chain, and in that case the `verify` call
fails at once with the cycle error, touching nothing (no blocking, no
retrying); conversely a `verify` call that returns a value was not
re-entered. -/
theorem claim_exclusive_failure_cycle (fuel : Nat) (env : Nat → Comp) (bid : Nat)
    (s : GraphState) (tok : Nat) :
    (0 < fuel → s.inProgress bid = true →
      verify fuel env bid s tok = (s, [], Except.error VError.cycleDetected)) ∧
    (∀ s1 g out, verify fuel env bid s tok = (s1, g, Except.ok out) →
      s.inProgress bid = false) := by
  constructor
  · intro hf hp
    obtain ⟨m, rfl⟩ := Nat.exists_eq_succ_of_ne_zero (Nat.pos_iff_ne_zero.mp hf)
    exact verify_reenter m env bid s tok hp
  · intro s1 g out h
    exact (verify_ok_shape h).2.2.2.1

/-- Witness for C9: verifying branch 0 while its `RefCell` is held fails
immediately with the cycle error and an unchanged state, while the
successful verify on the quiescent `sNine` certifies the branch was not
being recomputed. -/
theorem claim_exclusive_failure_cycle_witness :
    verify 3 envNine 0 (setInProgress sNine 0 true) 0 =
      (setInProgress sNine 0 true, [], Except.error VError.cycleDetected) ∧
    sNine.inProgress 0 = false := by
  constructor
  · exact (claim_exclusive_failure_cycle 3 envNine 0 (setInProgress sNine 0 true) 0).1
      (by decide) rfl
  · exact (claim_exclusive_failure_cycle 3 envNine 0 sNine 0).2
      (verify 3 envNine 0 sNine 0).1 (verify 3 envNine 0 sNine 0).2.1
      { value := 1, token := 0, run := none } rfl

/-- C10.  State after an aborted recompute: if `verify` enters the stale
path and the closure aborts with a panic (for example a nested cycle), the
branch keeps its previous cached value and `last_modified`, but its
`last_verified` was already advanced to the current revision before the
closure ran, and the borrow is released; hence once the abort is caught, a
later `verify` at the same revision returns the old cached value with no
recompute and no error. -/
theorem claim_aborted_recompute (fuel : Nat) (env : Nat → Comp) (bid : Nat)
    (s : GraphState) (tok : Nat) (hf : 0 < fuel) (hp : s.inProgress bid = false) :
    ∀ s1 g e, verify fuel env bid s tok = (s1, g, Except.error e) →
      (s1.branches bid).value = (s.branches bid).value ∧
      (s1.branches bid).last_modified = (s.branches bid).last_modified ∧
      (s1.branches bid).last_verified = s.revision ∧
      s1.revision = s.revision ∧ s1.inProgress bid = false ∧
      (∀ fuel2 tok2, verify (fuel2 + 1) env bid s1 tok2 =
        (s1, [], Except.ok { value := (s.branches bid).value,
                             token := max tok2 (s.branches bid).last_modified,
                             run := none })) := by
  obtain ⟨m, rfl⟩ := Nat.exists_eq_succ_of_ne_zero (Nat.pos_iff_ne_zero.mp hf)
  intro s1 g e h
  by_cases hst : (s.branches bid).last_verified < s.revision
  · rcases hE : runComp m env bid (env bid) (beginRecompute s bid)
        (s.branches bid).last_modified with ⟨s2, g2, r2⟩
    cases r2 with
    | ok co =>
        rw [verify_stale_ok m env bid s tok s2 g2 co hp hst hE] at h
        cases h
    | error e2 =>
        rw [verify_stale_err m env bid s tok s2 g2 e2 hp hst hE] at h
        cases h
        have hin : (beginRecompute s bid).inProgress bid = true := by
          rw [beginRecompute_inProgress]; simp
        obtain ⟨hEv, hIp, _, hBid⟩ := runComp_frame hE
        have hrec : s2.branches bid = (beginRecompute s bid).branches bid :=
          (hBid hin).2 _ rfl
        have hbr : (setInProgress s2 bid false).branches = s2.branches := rfl
        have hrev : s2.revision = s.revision := hEv.1
        have hb2 : s2.branches bid =
            { s.branches bid with last_verified := s.revision } := by
          rw [hrec, beginRecompute_branches]
          simp
        have hval : ((setInProgress s2 bid false).branches bid).value =
            (s.branches bid).value := by rw [hbr, hb2]
        have hlm : ((setInProgress s2 bid false).branches bid).last_modified =
            (s.branches bid).last_modified := by rw [hbr, hb2]
        have hlv : ((setInProgress s2 bid false).branches bid).last_verified =
            s.revision := by rw [hbr, hb2]
        have hrev1 : (setInProgress s2 bid false).revision = s.revision := hrev
        have hip1 : (setInProgress s2 bid false).inProgress bid = false := by
          simp [setInProgress]
        refine ⟨hval, hlm, hlv, hrev1, hip1, fun fuel2 tok2 => ?_⟩
        have hnost : ¬ ((setInProgress s2 bid false).branches bid).last_verified <
            (setInProgress s2 bid false).revision := by
          rw [hlv, hrev1]
          exact lt_irrefl _
        rw [verify_fresh fuel2 env bid (setInProgress s2 bid false) tok2 hip1 hnost,
          hval, hlm]
  · rw [verify_fresh m env bid s tok hp hst] at h
    cases h

/-- Witness for C10 on the self-cycle (branch 0's closure reads branch 0):
the aborted recompute leaves value 7 and `last_modified` 0 while
`last_verified` is already 1, and a later verify at revision 1 returns 7
without recomputing and without error. -/
theorem claim_aborted_recompute_witness :
    ((verify 5 envSelf 0 sSelf 0).1.branches 0).value = (sSelf.branches 0).value ∧
    ((verify 5 envSelf 0 sSelf 0).1.branches 0).last_modified =
      (sSelf.branches 0).last_modified ∧
    ((verify 5 envSelf 0 sSelf 0).1.branches 0).last_verified = sSelf.revision ∧
    (verify 5 envSelf 0 sSelf 0).1.revision = sSelf.revision ∧
    (verify 5 envSelf 0 sSelf 0).1.inProgress 0 = false ∧
    verify (3 + 1) envSelf 0 (verify 5 envSelf 0 sSelf 0).1 0 =
      ((verify 5 envSelf 0 sSelf 0).1, [],
        Except.ok { value := (sSelf.branches 0).value,
                    token := max 0 (sSelf.branches 0).last_modified,
                    run := none }) := by
  have hmain := claim_aborted_recompute 5 envSelf 0 sSelf 0 (by decide) rfl
    (verify 5 envSelf 0 sSelf 0).1 (verify 5 envSelf 0 sSelf 0).2.1
    VError.cycleDetected rfl
  exact ⟨hmain.1, hmain.2.1, hmain.2.2.1, hmain.2.2.2.1, hmain.2.2.2.2.1,
    hmain.2.2.2.2.2 3 0⟩

end Incremental
